import Mathlib

/-!
Verification of the lossless-compression strategy selector
(`ultra_compress_lossless` in ga2-q2/compress.py).

The pixel codec (PIL encode/decode/convert) is an external library; it is
modelled as an abstract record of deterministic functions (`Codec`), where
the encode entry points may fail (a raised exception is modelled as
`Except.error ()`, and an uncaught exception propagates to the result of the
whole run).  Everything else - the strategy sequence, the applicability
guards, the verification comparisons, the running-minimum selection, the
budget evaluation and the final write - is translated statement by
statement from the source.
-/

/-- Color modes of PIL images that the source distinguishes
(img.mode values: L, RGB, RGBA, P, anything else). -/
inductive Mode where
  | L
  | RGB
  | RGBA
  | P
  | other
deriving DecidableEq, Repr

/-- In-memory image: dimensions, mode and the pixel sequence returned by
img.getdata().  Pixel values are abstracted to naturals. -/
structure Img where
  width : Nat
  height : Nat
  mode : Mode
  pixels : List Nat
deriving DecidableEq, Repr

/-- unique_colors = len(set(original_pixels))  (compress.py line 27). -/
def uniqueColors (img : Img) : Nat :=
  img.pixels.dedup.length

/-- One entry of the strategies list: (filepath, size, method) plus the
bytes the strategy wrote into that temp file (the file content, carried
here so that the final byte-for-byte copy can be expressed). -/
structure Cand where
  file : String
  size : Nat
  method : String
  bytes : List Nat
deriving DecidableEq, Repr

/-- The running best: best_size starts at float(inf) and best_file at None
(lines 34-35); the two are updated in lockstep, so they are modelled as one
Option Cand (none = no candidate yet, size of some c = best_size). -/
def stepMin (best : Option Cand) (c : Cand) : Option Cand :=
  match best with
  | none => some c                                   -- c.size < inf
  | some b => if c.size < b.size then some c else some b

/-- Selection state: the strategies list and the running best. -/
structure SelState where
  cands : List Cand
  best : Option Cand
deriving DecidableEq, Repr

/-- strategies.append((temp, size, method)) immediately followed by
if size < best_size: best_size, best_file = size, temp. -/
def addCand (s : SelState) (c : Cand) : SelState :=
  ⟨s.cands ++ [c], stepMin s.best c⟩

/-- The external image codec.  Encoding may raise (Except.error ());
decode and the two conversions are modelled as total deterministic
functions.  encodePNG is the single generic call
img.save(path, PNG, optimize=True, compress_level=9) used by strategies
1, 2 and 3; encodePNGbits is the save call with bits=b of strategy 4. -/
structure Codec where
  encodePNG : Img → Except Unit (List Nat)
  encodePNGbits : Img → Nat → Except Unit (List Nat)
  decode : List Nat → Img
  convertP : Img → Nat → Img
  convertMode : Img → Mode → Img

/-- Applicability guard of the palette strategy (lines 31 and 59):
unique_colors <= 256 and img.mode in (RGB, RGBA, L). -/
def palApplicable (img : Img) : Bool :=
  uniqueColors img ≤ 256 &&
    (img.mode == Mode.RGB || img.mode == Mode.RGBA || img.mode == Mode.L)

/-- Strategy 1 (lines 40-56): direct PNG re-encode, verify by re-opening the
file and comparing getdata() against original_pixels.  The save call is not
inside a try block, so an encode failure propagates. -/
def strat1 (κ : Codec) (img : Img) (s : SelState) : Except Unit SelState :=
  match κ.encodePNG img with
  | .error e => .error e
  | .ok bytes =>
    if (κ.decode bytes).pixels = img.pixels then
      .ok (addCand s ⟨"temp_method1.png", bytes.length, "PNG compress_level=9", bytes⟩)
    else
      .ok s                                          -- FAILED: temp file removed, not ranked

/-- Strategy 2 (lines 59-84): palette re-encode, guarded by palApplicable.
Both branches of the RGBA test perform the same convert call (lines 63-67).
Verification converts the decoded image back to the original mode before
comparing (line 74).  The save call is not inside a try block. -/
def strat2 (κ : Codec) (img : Img) (s : SelState) : Except Unit SelState :=
  if palApplicable img then
    match κ.encodePNG (κ.convertP img (uniqueColors img)) with
    | .error e => .error e
    | .ok bytes =>
      if (κ.convertMode (κ.decode bytes) img.mode).pixels = img.pixels then
        .ok (addCand s ⟨"temp_method2.png", bytes.length,
              "Palette mode (" ++ toString (uniqueColors img) ++ " colors)", bytes⟩)
      else
        .ok s
  else
    .ok s

/-- Temp file name of strategy 3 for filter index k. -/
def filtFile (k : Nat) : String := "temp_filter_" ++ toString k ++ ".png"

/-- One iteration of strategy 3 (lines 88-102).  The whole body sits in a
try/except that swallows every error, so a failing encode leaves the state
unchanged.  The save call is the same generic encodePNG on the original
image, regardless of filter_type. -/
def strat3one (κ : Codec) (img : Img) (s : SelState) (k : Nat) : SelState :=
  match κ.encodePNG img with
  | .error _ => s                                    -- bare except: pass
  | .ok bytes =>
    if (κ.decode bytes).pixels = img.pixels then
      addCand s ⟨filtFile k, bytes.length, "PNG filter " ++ toString k, bytes⟩
    else
      s

/-- Strategy 3: for filter_type in [0, 1, 2, 3, 4]. -/
def strat3 (κ : Codec) (img : Img) (s : SelState) : SelState :=
  [0, 1, 2, 3, 4].foldl (strat3one κ img) s

/-- Temp file name of strategy 4 for bit width b. -/
def bitsFile (b : Nat) : String := "temp_bits_" ++ toString b ++ ".png"

/-- One iteration of strategy 4 (lines 110-123), guarded by
gray_levels <= 2**bits.  The save call (bits=b) is not inside a try block. -/
def strat4one (κ : Codec) (img : Img) (b : Nat) (s : SelState) : Except Unit SelState :=
  if uniqueColors img ≤ 2 ^ b then
    match κ.encodePNGbits img b with
    | .error e => .error e
    | .ok bytes =>
      if (κ.decode bytes).pixels = img.pixels then
        .ok (addCand s ⟨bitsFile b, bytes.length, toString b ++ "-bit grayscale", bytes⟩)
      else
        .ok s
  else
    .ok s

/-- Strategy 4 (lines 105-123): only for grayscale, bits in [4, 2, 1]. -/
def strat4 (κ : Codec) (img : Img) (s : SelState) : Except Unit SelState :=
  if img.mode = Mode.L then
    match strat4one κ img 4 s with
    | .error e => .error e
    | .ok s1 =>
      match strat4one κ img 2 s1 with
      | .error e => .error e
      | .ok s2 => strat4one κ img 1 s2
  else
    .ok s

/-- The candidate-collection phase of the run: the four strategy blocks in
source order, starting from the empty strategies list and best = (inf, None).
An uncaught exception in any block aborts the whole run. -/
def runState (κ : Codec) (img : Img) : Except Unit SelState :=
  match strat1 κ img ⟨[], none⟩ with
  | .error e => .error e
  | .ok s1 =>
    match strat2 κ img s1 with
    | .error e => .error e
    | .ok s2 => strat4 κ img (strat3 κ img s2)

/-- Observable outcome of a completed run.
success carries the destination path, best_size, the reported compression
ratio 1 - best_size/original_size (a rational standing for the printed
float) and the bytes written to the destination; the function returns
(output_path, best_size).
missed models the else branch (line 160): the function returns
(None, best_size) and nothing is written; bestSize = none stands for
best_size = float(inf) (no verified candidate), in which case the printed
shortfall best_size - target_bytes is likewise infinite (none). -/
inductive Outcome where
  | success (path : String) (size : Nat) (ratio : ℚ) (written : List Nat)
  | missed (bestSize : Option Nat) (shortfall : Option Nat)
deriving DecidableEq, Repr

/-- Bytes written to the destination file by the run, if any. -/
def outputWrite : Outcome → Option (List Nat)
  | .success _ _ _ w => some w
  | .missed _ _ => none

/-- Lines 137-185: if best_size < target_bytes, copy best_file to
output_path verbatim and report success, else report the miss.  When best
is none, best_size is float(inf) and the comparison inf < target_bytes is
false, so the else branch is taken. -/
def evalOutcome (best : Option Cand) (originalSize targetBytes : Nat)
    (outputPath : String) : Outcome :=
  match best with
  | some b =>
    if b.size < targetBytes then
      Outcome.success outputPath b.size (1 - (b.size : ℚ) / (originalSize : ℚ)) b.bytes
    else
      Outcome.missed (some b.size) (some (b.size - targetBytes))
  | none => Outcome.missed none none

/-- The whole run (compress.py lines 5-185). -/
def ultra_compress_lossless (κ : Codec) (img : Img)
    (originalSize targetBytes : Nat) (outputPath : String) : Except Unit Outcome :=
  match runState κ img with
  | .error e => .error e
  | .ok s => .ok (evalOutcome s.best originalSize targetBytes outputPath)

/-- The encode calls that the source performs outside any try block: the
direct save (strategy 1), the palette save when the guard holds
(strategy 2), and each applicable bits save for grayscale (strategy 4).
Strategy 3 is the only block whose body is wrapped in try/except. -/
def unguardedEncodesOK (κ : Codec) (img : Img) : Prop :=
  (∃ bytes, κ.encodePNG img = .ok bytes) ∧
  (palApplicable img = true →
    ∃ bytes, κ.encodePNG (κ.convertP img (uniqueColors img)) = .ok bytes) ∧
  (img.mode = Mode.L → ∀ b ∈ [4, 2, 1], uniqueColors img ≤ 2 ^ b →
    ∃ bytes, κ.encodePNGbits img b = .ok bytes)

/-!  Concrete test fixtures (images and codecs) used to instantiate the
general theorems and to exhibit counterexamples. -/

/-- A 1x1 single-color grayscale image. -/
def imgA : Img := ⟨1, 1, Mode.L, [5]⟩

/-- A 1x1 RGB image (pixel values abstracted to naturals). -/
def imgB : Img := ⟨1, 1, Mode.RGB, [5]⟩

/-- The palette-converted form of imgB: its raw pixel data is the palette
index 0, not the original color value 5. -/
def pimgB : Img := ⟨1, 1, Mode.P, [0]⟩

/-- A 1x1 image of a mode outside (L, RGB, RGBA): palette and bit-depth
strategies are inapplicable. -/
def imgC : Img := ⟨1, 1, Mode.other, [5]⟩

/-- A codec for which every strategy round-trips exactly. -/
def codecGood : Codec :=
  { encodePNG := fun i => .ok (i.pixels ++ [0])
    encodePNGbits := fun i _ => .ok (i.pixels ++ [0])
    decode := fun bytes => ⟨1, 1, Mode.L, bytes.dropLast⟩
    convertP := fun i _ => i
    convertMode := fun i _ => i }

/-- A codec that mirrors real palette behavior on imgB: the palette file
decodes to index pixels (pimgB), which only match the original after
conversion back to RGB. -/
def codecPal : Codec :=
  { encodePNG := fun i => if i.mode = Mode.P then .ok [9] else .ok [8]
    encodePNGbits := fun _ _ => .ok [7]
    decode := fun bytes => if bytes = [9] then pimgB else imgB
    convertP := fun _ _ => pimgB
    convertMode := fun i m => if m = Mode.RGB then imgB else i }

/-- A codec whose decoder never reproduces the original pixels: every
verification fails, so no candidate is ever ranked. -/
def codecNoVerify : Codec :=
  { encodePNG := fun _ => .ok [1]
    encodePNGbits := fun _ _ => .ok [1]
    decode := fun _ => ⟨1, 1, Mode.L, [99]⟩
    convertP := fun i _ => i
    convertMode := fun i _ => i }

/-- A codec whose encoder always raises. -/
def codecFail : Codec :=
  { encodePNG := fun _ => .error ()
    encodePNGbits := fun _ _ => .error ()
    decode := fun _ => imgA
    convertP := fun i _ => i
    convertMode := fun i _ => i }

/-!  Selection invariants. -/

/-- Raw verification check used by strategies 1, 3 and 4: the reopened
file decodes to the original pixel sequence. -/
def rawVerified (κ : Codec) (img : Img) (bytes : List Nat) : Prop :=
  (κ.decode bytes).pixels = img.pixels

/-- Verification check of strategy 2: the decoded image is converted back
to the original mode before the comparison (line 74). -/
def convVerified (κ : Codec) (img : Img) (bytes : List Nat) : Prop :=
  (κ.convertMode (κ.decode bytes) img.mode).pixels = img.pixels

/-- Provenance invariant of every ranked candidate: its temp-file name
identifies the strategy that produced it, its bytes are exactly the output
of that strategy's single encode call, its size is the byte count of the
written file, and it passed that strategy's verification. -/
def StratInv (κ : Codec) (img : Img) (c : Cand) : Prop :=
  c.size = c.bytes.length ∧
  ((c.file = "temp_method1.png" ∧ κ.encodePNG img = .ok c.bytes ∧
      rawVerified κ img c.bytes) ∨
   (c.file = "temp_method2.png" ∧ palApplicable img = true ∧
      κ.encodePNG (κ.convertP img (uniqueColors img)) = .ok c.bytes ∧
      convVerified κ img c.bytes) ∨
   ((∃ k ∈ [0, 1, 2, 3, 4], c.file = filtFile k) ∧ κ.encodePNG img = .ok c.bytes ∧
      rawVerified κ img c.bytes) ∨
   ((∃ b ∈ [4, 2, 1], c.file = bitsFile b ∧ uniqueColors img ≤ 2 ^ b ∧
      κ.encodePNGbits img b = .ok c.bytes) ∧ img.mode = Mode.L ∧
      rawVerified κ img c.bytes))

/-- t is s extended by a block Δ of appended candidates, each satisfying P,
with the running best threaded through stepMin over Δ. -/
def ExtendsP (P : Cand → Prop) (s t : SelState) : Prop :=
  ∃ Δ, t.cands = s.cands ++ Δ ∧ t.best = Δ.foldl stepMin s.best ∧ ∀ c ∈ Δ, P c

lemma extendsP_refl (P : Cand → Prop) (s : SelState) : ExtendsP P s s :=
  ⟨[], by simp, rfl, by simp⟩

lemma extendsP_trans {P : Cand → Prop} {s t u : SelState}
    (h1 : ExtendsP P s t) (h2 : ExtendsP P t u) : ExtendsP P s u := by
  obtain ⟨Δ1, hc1, hb1, hp1⟩ := h1
  obtain ⟨Δ2, hc2, hb2, hp2⟩ := h2
  refine ⟨Δ1 ++ Δ2, by simp [hc2, hc1], ?_, ?_⟩
  · rw [hb2, hb1, List.foldl_append]
  · intro c hc
    rcases List.mem_append.1 hc with h | h
    exacts [hp1 c h, hp2 c h]

lemma extendsP_addCand {P : Cand → Prop} {c : Cand} (s : SelState) (h : P c) :
    ExtendsP P s (addCand s c) :=
  ⟨[c], rfl, rfl, by simpa⟩

lemma mem_of_extendsP {P : Cand → Prop} {s t : SelState} (h : ExtendsP P s t)
    {c : Cand} (hc : c ∈ s.cands) : c ∈ t.cands := by
  obtain ⟨Δ, hΔ, _, _⟩ := h
  rw [hΔ]
  exact List.mem_append_left _ hc

lemma strat1_extends {κ : Codec} {img : Img} {s t : SelState}
    (h : strat1 κ img s = .ok t) : ExtendsP (StratInv κ img) s t := by
  unfold strat1 at h
  split at h
  · cases h
  · rename_i bytes heq
    split at h
    · rename_i hv
      cases h
      exact extendsP_addCand s ⟨rfl, Or.inl ⟨rfl, heq, hv⟩⟩
    · cases h
      exact extendsP_refl _ _

lemma strat2_extends {κ : Codec} {img : Img} {s t : SelState}
    (h : strat2 κ img s = .ok t) : ExtendsP (StratInv κ img) s t := by
  unfold strat2 at h
  split at h
  · rename_i ha
    split at h
    · cases h
    · rename_i bytes heq
      split at h
      · rename_i hv
        cases h
        exact extendsP_addCand s ⟨rfl, Or.inr (Or.inl ⟨rfl, ha, heq, hv⟩)⟩
      · cases h
        exact extendsP_refl _ _
  · cases h
    exact extendsP_refl _ _

lemma strat3one_extends (κ : Codec) (img : Img) (s : SelState) {k : Nat}
    (hk : k ∈ [0, 1, 2, 3, 4]) : ExtendsP (StratInv κ img) s (strat3one κ img s k) := by
  unfold strat3one
  split
  · exact extendsP_refl _ _
  · rename_i bytes heq
    split
    · rename_i hv
      exact extendsP_addCand s ⟨rfl, Or.inr (Or.inr (Or.inl ⟨⟨k, hk, rfl⟩, heq, hv⟩))⟩
    · exact extendsP_refl _ _

lemma strat3_extends (κ : Codec) (img : Img) (s : SelState) :
    ExtendsP (StratInv κ img) s (strat3 κ img s) := by
  unfold strat3
  simp only [List.foldl]
  exact extendsP_trans (strat3one_extends κ img s (by simp))
    (extendsP_trans (strat3one_extends κ img _ (by simp))
      (extendsP_trans (strat3one_extends κ img _ (by simp))
        (extendsP_trans (strat3one_extends κ img _ (by simp))
          (strat3one_extends κ img _ (by simp)))))

lemma strat4one_extends {κ : Codec} {img : Img} {s t : SelState} {b : Nat}
    (hb : b ∈ [4, 2, 1]) (hm : img.mode = Mode.L)
    (h : strat4one κ img b s = .ok t) : ExtendsP (StratInv κ img) s t := by
  unfold strat4one at h
  split at h
  · rename_i hg
    split at h
    · cases h
    · rename_i bytes heq
      split at h
      · rename_i hv
        cases h
        exact extendsP_addCand s ⟨rfl, Or.inr (Or.inr (Or.inr ⟨⟨b, hb, rfl, hg, heq⟩, hm, hv⟩))⟩
      · cases h
        exact extendsP_refl _ _
  · cases h
    exact extendsP_refl _ _

lemma strat4_extends {κ : Codec} {img : Img} {s t : SelState}
    (h : strat4 κ img s = .ok t) : ExtendsP (StratInv κ img) s t := by
  unfold strat4 at h
  split at h
  · rename_i hm
    split at h
    · cases h
    · rename_i s1 h4
      split at h
      · cases h
      · rename_i s2 h2
        exact extendsP_trans (strat4one_extends (by simp) hm h4)
          (extendsP_trans (strat4one_extends (by simp) hm h2)
            (strat4one_extends (by simp) hm h))
  · cases h
    exact extendsP_refl _ _

lemma runState_cases {κ : Codec} {img : Img} {s : SelState}
    (h : runState κ img = .ok s) :
    ∃ s1 s2, strat1 κ img ⟨[], none⟩ = .ok s1 ∧ strat2 κ img s1 = .ok s2 ∧
      strat4 κ img (strat3 κ img s2) = .ok s := by
  unfold runState at h
  split at h
  · cases h
  · rename_i s1 h1
    split at h
    · cases h
    · rename_i s2 h2
      exact ⟨s1, s2, h1, h2, h⟩

lemma runState_extendsP {κ : Codec} {img : Img} {s : SelState}
    (h : runState κ img = .ok s) : ExtendsP (StratInv κ img) ⟨[], none⟩ s := by
  obtain ⟨s1, s2, h1, h2, h4⟩ := runState_cases h
  exact extendsP_trans (strat1_extends h1)
    (extendsP_trans (strat2_extends h2)
      (extendsP_trans (strat3_extends κ img s2) (strat4_extends h4)))

lemma runState_best_eq {κ : Codec} {img : Img} {s : SelState}
    (h : runState κ img = .ok s) : s.best = s.cands.foldl stepMin none := by
  obtain ⟨Δ, hc, hb, _⟩ := runState_extendsP h
  simp only [List.nil_append] at hc
  rw [hb, hc]

lemma runState_inv {κ : Codec} {img : Img} {s : SelState}
    (h : runState κ img = .ok s) : ∀ c ∈ s.cands, StratInv κ img c := by
  obtain ⟨Δ, hc, _, hp⟩ := runState_extendsP h
  intro c hmem
  apply hp
  simp only [List.nil_append] at hc
  rwa [hc] at hmem

/-!  The running minimum is the first candidate of minimal size. -/

lemma stepMin_none (c : Cand) : stepMin none c = some c := rfl

lemma stepMin_some (b c : Cand) :
    stepMin (some b) c = if c.size < b.size then some c else some b := rfl

lemma foldl_stepMin_some (b : Cand) (l : List Cand) :
    ∃ d, l.foldl stepMin (some b) = some d := by
  induction l generalizing b with
  | nil => exact ⟨b, rfl⟩
  | cons c l ih =>
    simp only [List.foldl]
    by_cases hlt : c.size < b.size
    · rw [stepMin_some, if_pos hlt]; exact ih c
    · rw [stepMin_some, if_neg hlt]; exact ih b

lemma foldl_stepMin_none_iff (l : List Cand) :
    l.foldl stepMin none = none ↔ l = [] := by
  cases l with
  | nil => simp
  | cons c l =>
    simp only [List.foldl, stepMin_none]
    constructor
    · intro h
      obtain ⟨d, hd⟩ := foldl_stepMin_some c l
      rw [hd] at h
      cases h
    · intro h
      cases h

/-- The fold that the code performs (replace only on strict improvement,
starting from infinity) yields a candidate of minimal size, and every
candidate strictly before it in the list has strictly larger size. -/
lemma foldl_stepMin_spec :
    ∀ (l : List Cand) (b : Cand), l.foldl stepMin none = some b →
      (∀ c ∈ l, b.size ≤ c.size) ∧
      ∃ l1 l2, l = l1 ++ b :: l2 ∧ ∀ c ∈ l1, b.size < c.size := by
  intro l
  induction l using List.reverseRecOn with
  | nil => intro b h; cases h
  | append_singleton l c ih =>
    intro b h
    rw [List.foldl_append] at h
    simp only [List.foldl] at h
    cases hl : l.foldl stepMin none with
    | none =>
      rw [hl, stepMin_none] at h
      have hnil : l = [] := (foldl_stepMin_none_iff l).1 hl
      subst hnil
      have hb : b = c := (Option.some.inj h).symm
      subst hb
      exact ⟨by simp, [], [], by simp, by simp⟩
    | some b2 =>
      rw [hl, stepMin_some] at h
      obtain ⟨hmin, l1, l2, hsplit, hfirst⟩ := ih b2 hl
      by_cases hlt : c.size < b2.size
      · rw [if_pos hlt] at h
        have hb : b = c := (Option.some.inj h).symm
        subst hb
        refine ⟨?_, l, [], by simp, ?_⟩
        · intro x hx
          rcases List.mem_append.1 hx with hx | hx
          · exact le_of_lt (lt_of_lt_of_le hlt (hmin x hx))
          · rw [List.mem_singleton.1 hx]
        · intro x hx
          exact lt_of_lt_of_le hlt (hmin x hx)
      · rw [if_neg hlt] at h
        have hb : b = b2 := (Option.some.inj h).symm
        subst hb
        refine ⟨?_, l1, l2 ++ [c], by rw [hsplit]; simp, hfirst⟩
        intro x hx
        rcases List.mem_append.1 hx with hx | hx
        · exact hmin x hx
        · rw [List.mem_singleton.1 hx]
          exact le_of_not_lt hlt

/-!  Membership lemmas: what each strategy block contributes. -/

lemma strat1_eq {κ : Codec} {img : Img} {bytes : List Nat} (s : SelState)
    (he : κ.encodePNG img = .ok bytes) (hv : rawVerified κ img bytes) :
    strat1 κ img s =
      .ok (addCand s ⟨"temp_method1.png", bytes.length, "PNG compress_level=9", bytes⟩) := by
  unfold strat1
  rw [he]
  exact if_pos hv

lemma strat2_eq {κ : Codec} {img : Img} {bytes : List Nat} (s : SelState)
    (ha : palApplicable img = true)
    (he : κ.encodePNG (κ.convertP img (uniqueColors img)) = .ok bytes)
    (hv : convVerified κ img bytes) :
    strat2 κ img s =
      .ok (addCand s ⟨"temp_method2.png", bytes.length,
            "Palette mode (" ++ toString (uniqueColors img) ++ " colors)", bytes⟩) := by
  unfold strat2
  rw [if_pos ha, he]
  exact if_pos hv

lemma strat3one_eq {κ : Codec} {img : Img} {bytes : List Nat} (s : SelState) (k : Nat)
    (he : κ.encodePNG img = .ok bytes) (hv : rawVerified κ img bytes) :
    strat3one κ img s k =
      addCand s ⟨filtFile k, bytes.length, "PNG filter " ++ toString k, bytes⟩ := by
  unfold strat3one
  rw [he]
  exact if_pos hv

lemma strat3_mem {κ : Codec} {img : Img} {bytes : List Nat} (s : SelState)
    (he : κ.encodePNG img = .ok bytes) (hv : rawVerified κ img bytes) :
    ∀ k ∈ [0, 1, 2, 3, 4],
      (⟨filtFile k, bytes.length, "PNG filter " ++ toString k, bytes⟩ : Cand) ∈
        (strat3 κ img s).cands := by
  unfold strat3
  simp only [List.foldl]
  rw [strat3one_eq _ 0 he hv, strat3one_eq _ 1 he hv, strat3one_eq _ 2 he hv,
    strat3one_eq _ 3 he hv, strat3one_eq _ 4 he hv]
  intro k hk
  fin_cases hk <;> simp [addCand]

lemma direct_mem {κ : Codec} {img : Img} {s : SelState} {bytes : List Nat}
    (h : runState κ img = .ok s)
    (he : κ.encodePNG img = .ok bytes) (hv : rawVerified κ img bytes) :
    (⟨"temp_method1.png", bytes.length, "PNG compress_level=9", bytes⟩ : Cand) ∈ s.cands := by
  obtain ⟨s1, s2, h1, h2, h4⟩ := runState_cases h
  rw [strat1_eq _ he hv] at h1
  have hs1 : s1 = addCand ⟨[], none⟩
      ⟨"temp_method1.png", bytes.length, "PNG compress_level=9", bytes⟩ :=
    (Except.ok.inj h1).symm
  have hmem : (⟨"temp_method1.png", bytes.length, "PNG compress_level=9", bytes⟩ : Cand) ∈
      s1.cands := by
    rw [hs1]; simp [addCand]
  exact mem_of_extendsP (strat4_extends h4)
    (mem_of_extendsP (strat3_extends κ img s2) (mem_of_extendsP (strat2_extends h2) hmem))

lemma filter_mem {κ : Codec} {img : Img} {s : SelState} {bytes : List Nat}
    (h : runState κ img = .ok s)
    (he : κ.encodePNG img = .ok bytes) (hv : rawVerified κ img bytes) :
    ∀ k ∈ [0, 1, 2, 3, 4],
      (⟨filtFile k, bytes.length, "PNG filter " ++ toString k, bytes⟩ : Cand) ∈ s.cands := by
  obtain ⟨s1, s2, h1, h2, h4⟩ := runState_cases h
  intro k hk
  exact mem_of_extendsP (strat4_extends h4) (strat3_mem s2 he hv k hk)

lemma palette_mem {κ : Codec} {img : Img} {s : SelState} {bytes : List Nat}
    (h : runState κ img = .ok s) (ha : palApplicable img = true)
    (he : κ.encodePNG (κ.convertP img (uniqueColors img)) = .ok bytes)
    (hv : convVerified κ img bytes) :
    (⟨"temp_method2.png", bytes.length,
      "Palette mode (" ++ toString (uniqueColors img) ++ " colors)", bytes⟩ : Cand) ∈
        s.cands := by
  obtain ⟨s1, s2, h1, h2, h4⟩ := runState_cases h
  rw [strat2_eq _ ha he hv] at h2
  have hs2 : s2 = addCand s1 ⟨"temp_method2.png", bytes.length,
      "Palette mode (" ++ toString (uniqueColors img) ++ " colors)", bytes⟩ :=
    (Except.ok.inj h2).symm
  have hmem : (⟨"temp_method2.png", bytes.length,
      "Palette mode (" ++ toString (uniqueColors img) ++ " colors)", bytes⟩ : Cand) ∈
        s2.cands := by
    rw [hs2]; simp [addCand]
  exact mem_of_extendsP (strat4_extends h4) (mem_of_extendsP (strat3_extends κ img s2) hmem)

/-!  Inversions and constructions for the error-propagation analysis. -/

lemma strat1_ok_encode {κ : Codec} {img : Img} {s t : SelState}
    (h : strat1 κ img s = .ok t) : ∃ bytes, κ.encodePNG img = .ok bytes := by
  unfold strat1 at h
  split at h
  · cases h
  · rename_i bytes heq
    exact ⟨bytes, heq⟩

lemma strat2_ok_encode {κ : Codec} {img : Img} {s t : SelState}
    (h : strat2 κ img s = .ok t) (ha : palApplicable img = true) :
    ∃ bytes, κ.encodePNG (κ.convertP img (uniqueColors img)) = .ok bytes := by
  unfold strat2 at h
  rw [if_pos ha] at h
  split at h
  · cases h
  · rename_i bytes heq
    exact ⟨bytes, heq⟩

lemma strat4one_ok_encode {κ : Codec} {img : Img} {b : Nat} {s t : SelState}
    (h : strat4one κ img b s = .ok t) (hg : uniqueColors img ≤ 2 ^ b) :
    ∃ bytes, κ.encodePNGbits img b = .ok bytes := by
  unfold strat4one at h
  rw [if_pos hg] at h
  split at h
  · cases h
  · rename_i bytes heq
    exact ⟨bytes, heq⟩

lemma strat4_cases {κ : Codec} {img : Img} {s t : SelState}
    (h : strat4 κ img s = .ok t) (hm : img.mode = Mode.L) :
    ∃ s1 s2, strat4one κ img 4 s = .ok s1 ∧ strat4one κ img 2 s1 = .ok s2 ∧
      strat4one κ img 1 s2 = .ok t := by
  unfold strat4 at h
  rw [if_pos hm] at h
  split at h
  · cases h
  · rename_i s1 h4
    split at h
    · cases h
    · rename_i s2 h2
      exact ⟨s1, s2, h4, h2, h⟩

lemma strat1_isOk {κ : Codec} {img : Img} (s : SelState)
    (he : ∃ bytes, κ.encodePNG img = .ok bytes) : ∃ t, strat1 κ img s = .ok t := by
  obtain ⟨bytes, hb⟩ := he
  unfold strat1
  simp only [hb]
  by_cases hv : (κ.decode bytes).pixels = img.pixels
  · rw [if_pos hv]; exact ⟨_, rfl⟩
  · rw [if_neg hv]; exact ⟨_, rfl⟩

lemma strat2_isOk {κ : Codec} {img : Img} (s : SelState)
    (he : palApplicable img = true →
      ∃ bytes, κ.encodePNG (κ.convertP img (uniqueColors img)) = .ok bytes) :
    ∃ t, strat2 κ img s = .ok t := by
  unfold strat2
  by_cases ha : palApplicable img = true
  · rw [if_pos ha]
    obtain ⟨bytes, hb⟩ := he ha
    simp only [hb]
    by_cases hv : (κ.convertMode (κ.decode bytes) img.mode).pixels = img.pixels
    · rw [if_pos hv]; exact ⟨_, rfl⟩
    · rw [if_neg hv]; exact ⟨_, rfl⟩
  · rw [if_neg ha]; exact ⟨s, rfl⟩

lemma strat4one_isOk {κ : Codec} {img : Img} {b : Nat} (s : SelState)
    (he : uniqueColors img ≤ 2 ^ b → ∃ bytes, κ.encodePNGbits img b = .ok bytes) :
    ∃ t, strat4one κ img b s = .ok t := by
  unfold strat4one
  by_cases hg : uniqueColors img ≤ 2 ^ b
  · rw [if_pos hg]
    obtain ⟨bytes, hb⟩ := he hg
    simp only [hb]
    by_cases hv : (κ.decode bytes).pixels = img.pixels
    · rw [if_pos hv]; exact ⟨_, rfl⟩
    · rw [if_neg hv]; exact ⟨_, rfl⟩
  · rw [if_neg hg]; exact ⟨s, rfl⟩

lemma strat4_isOk {κ : Codec} {img : Img} (s : SelState)
    (he : img.mode = Mode.L → ∀ b ∈ [4, 2, 1], uniqueColors img ≤ 2 ^ b →
      ∃ bytes, κ.encodePNGbits img b = .ok bytes) :
    ∃ t, strat4 κ img s = .ok t := by
  unfold strat4
  by_cases hm : img.mode = Mode.L
  · rw [if_pos hm]
    obtain ⟨s1, hs1⟩ := strat4one_isOk s (he hm 4 (by simp))
    obtain ⟨s2, hs2⟩ := strat4one_isOk s1 (he hm 2 (by simp))
    obtain ⟨s3, hs3⟩ := strat4one_isOk s2 (he hm 1 (by simp))
    simp only [hs1, hs2]
    exact ⟨s3, hs3⟩
  · rw [if_neg hm]; exact ⟨s, rfl⟩

lemma runState_isOk {κ : Codec} {img : Img} (h : unguardedEncodesOK κ img) :
    ∃ s, runState κ img = .ok s := by
  obtain ⟨h1, h2, h4⟩ := h
  obtain ⟨s1, hs1⟩ := strat1_isOk ⟨[], none⟩ h1
  obtain ⟨s2, hs2⟩ := strat2_isOk s1 h2
  obtain ⟨t, ht⟩ := strat4_isOk (strat3 κ img s2) h4
  refine ⟨t, ?_⟩
  unfold runState
  simp only [hs1, hs2]
  exact ht

lemma runState_unguarded {κ : Codec} {img : Img} {s : SelState}
    (h : runState κ img = .ok s) : unguardedEncodesOK κ img := by
  obtain ⟨s1, s2, h1, h2, h4⟩ := runState_cases h
  refine ⟨strat1_ok_encode h1, fun ha => strat2_ok_encode h2 ha, fun hm b hb hg => ?_⟩
  obtain ⟨t1, t2, g4, g2, g1⟩ := strat4_cases h4 hm
  fin_cases hb
  · exact strat4one_ok_encode g4 hg
  · exact strat4one_ok_encode g2 hg
  · exact strat4one_ok_encode g1 hg

lemma ultra_eq {κ : Codec} {img : Img} {s : SelState} (orig target : Nat) (path : String)
    (h : runState κ img = .ok s) :
    ultra_compress_lossless κ img orig target path =
      .ok (evalOutcome s.best orig target path) := by
  unfold ultra_compress_lossless
  simp only [h]

lemma ultra_cases {κ : Codec} {img : Img} {orig target : Nat} {path : String} {out : Outcome}
    (h : ultra_compress_lossless κ img orig target path = .ok out) :
    ∃ s, runState κ img = .ok s ∧ out = evalOutcome s.best orig target path := by
  unfold ultra_compress_lossless at h
  split at h
  · cases h
  · rename_i s hs
    exact ⟨s, hs, (Except.ok.inj h).symm⟩

/-!  What the provenance invariant says for each file-name shape. -/

lemma stratInv_palette {κ : Codec} {img : Img} {c : Cand} (h : StratInv κ img c)
    (hf : c.file = "temp_method2.png") :
    palApplicable img = true ∧
    κ.encodePNG (κ.convertP img (uniqueColors img)) = .ok c.bytes ∧
    convVerified κ img c.bytes ∧ c.size = c.bytes.length := by
  obtain ⟨hsz, h1 | h2 | h3 | h4⟩ := h
  · rw [h1.1] at hf
    exact absurd hf (by decide)
  · exact ⟨h2.2.1, h2.2.2.1, h2.2.2.2, hsz⟩
  · obtain ⟨⟨k, hk, hkf⟩, _, _⟩ := h3
    rw [hkf] at hf
    fin_cases hk <;> exact absurd hf (by decide)
  · obtain ⟨⟨b, hb, hbf, _, _⟩, _, _⟩ := h4
    rw [hbf] at hf
    fin_cases hb <;> exact absurd hf (by decide)

lemma stratInv_nonpal {κ : Codec} {img : Img} {c : Cand} (h : StratInv κ img c)
    (hf : c.file ≠ "temp_method2.png") : rawVerified κ img c.bytes := by
  obtain ⟨hsz, h1 | h2 | h3 | h4⟩ := h
  · exact h1.2.2
  · exact absurd h2.1 hf
  · exact h3.2.2
  · exact h4.2.2

lemma stratInv_filter {κ : Codec} {img : Img} {c : Cand} (h : StratInv κ img c)
    {k : Nat} (hk : k ∈ [0, 1, 2, 3, 4]) (hf : c.file = filtFile k) :
    κ.encodePNG img = .ok c.bytes ∧ rawVerified κ img c.bytes ∧
      c.size = c.bytes.length := by
  obtain ⟨hsz, h1 | h2 | h3 | h4⟩ := h
  · rw [h1.1] at hf
    fin_cases hk <;> exact absurd hf (by decide)
  · rw [h2.1] at hf
    fin_cases hk <;> exact absurd hf (by decide)
  · exact ⟨h3.2.1, h3.2.2, hsz⟩
  · obtain ⟨⟨b, hb, hbf, _, _⟩, _, _⟩ := h4
    rw [hbf] at hf
    fin_cases hb <;> fin_cases hk <;> exact absurd hf (by decide)

lemma evalOutcome_none_iff (best : Option Cand) (orig target : Nat) (path : String) :
    evalOutcome best orig target path = Outcome.missed none none ↔ best = none := by
  cases best with
  | none => simp [evalOutcome]
  | some b =>
    simp only [evalOutcome]
    constructor
    · intro h
      by_cases hlt : b.size < target
      · rw [if_pos hlt] at h; cases h
      · rw [if_neg hlt] at h; cases h
    · intro h; cases h

/-- C1: the selected winner has size less than or equal to every ranked
candidate, and every candidate collected before it in catalog order has
strictly larger size: the running best is replaced only on strict
improvement, so the earliest strategy wins ties. -/
theorem C1_selector_first_min (κ : Codec) (img : Img) (s : SelState) (b : Cand)
    (h : runState κ img = .ok s) (hb : s.best = some b) :
    (∀ c ∈ s.cands, b.size ≤ c.size) ∧
    ∃ l1 l2, s.cands = l1 ++ b :: l2 ∧ ∀ c ∈ l1, b.size < c.size := by
  have hfold := runState_best_eq h
  rw [hb] at hfold
  exact foldl_stepMin_spec s.cands b hfold.symm

/-- C1 witness: the concrete run of codecGood on imgA has a winner of
minimal size that precedes every other candidate of equal size. -/
theorem C1_witness :
    ∃ s b, runState codecGood imgA = Except.ok s ∧ s.best = some b ∧
      ((∀ c ∈ s.cands, b.size ≤ c.size) ∧
       ∃ l1 l2, s.cands = l1 ++ b :: l2 ∧ ∀ c ∈ l1, b.size < c.size) :=
  ⟨_, _, rfl, rfl, C1_selector_first_min codecGood imgA _ _ rfl rfl⟩

/-- C2 as stated fails on the code: a palette candidate can be ranked even
though decoding its bytes yields the palette indices rather than the
original pixel sequence, because strategy 2 verifies only the
mode-converted decode. -/
theorem C2_counterexample :
    ∃ s, runState codecPal imgB = Except.ok s ∧
      ∃ c ∈ s.cands, ¬ rawVerified codecPal imgB c.bytes := by
  refine ⟨_, rfl, ⟨"temp_method2.png", 1, "Palette mode (1 colors)", [9]⟩, by decide, ?_⟩
  unfold rawVerified codecPal pimgB imgB
  decide

/-- C2 amended: every ranked candidate passed its own strategy's exact
verification - raw decode equality for the direct, filter and bit-depth
strategies, decode followed by conversion back to the original mode for
the palette strategy; candidates failing their check are never ranked. -/
theorem C2_amended_exact_verification (κ : Codec) (img : Img) (s : SelState)
    (h : runState κ img = .ok s) :
    ∀ c ∈ s.cands,
      (c.file ≠ "temp_method2.png" → rawVerified κ img c.bytes) ∧
      (c.file = "temp_method2.png" → convVerified κ img c.bytes) := by
  intro c hc
  have hinv := runState_inv h c hc
  exact ⟨fun hne => stratInv_nonpal hinv hne, fun hf => (stratInv_palette hinv hf).2.2.1⟩

/-- C2 amended witness: concrete run of codecGood on imgA. -/
theorem C2_amended_witness :
    ∃ s, runState codecGood imgA = Except.ok s ∧
      ∀ c ∈ s.cands,
        (c.file ≠ "temp_method2.png" → rawVerified codecGood imgA c.bytes) ∧
        (c.file = "temp_method2.png" → convVerified codecGood imgA c.bytes) :=
  ⟨_, rfl, C2_amended_exact_verification codecGood imgA _ rfl⟩

/-- C3: with zero verified candidates the run returns the distinct outcome
modelling (None, float inf) - Outcome.missed none none - with no output
written, and that outcome arises exactly in the zero-candidate case
(equally, the winner is None exactly when no candidate was ranked). -/
theorem C3_no_lossless_candidate (κ : Codec) (img : Img) (orig target : Nat) (path : String)
    (s : SelState) (h : runState κ img = .ok s) :
    (s.best = none ↔ s.cands = []) ∧
    (ultra_compress_lossless κ img orig target path = .ok (Outcome.missed none none) ↔
      s.cands = []) ∧
    outputWrite (Outcome.missed none none) = none ∧
    (∀ p sz r w, Outcome.missed none none ≠ Outcome.success p sz r w) ∧
    (∀ bs short, Outcome.missed none none ≠ Outcome.missed (some bs) short) := by
  have hbe := runState_best_eq h
  have hiff : s.best = none ↔ s.cands = [] := by
    rw [hbe]; exact foldl_stepMin_none_iff s.cands
  refine ⟨hiff, ?_, rfl, ?_, ?_⟩
  case refine_2 =>
    intro p sz r w hcon
    cases hcon
  case refine_3 =>
    intro bs short hcon
    cases hcon
  rw [ultra_eq orig target path h]
  constructor
  · intro hout
    exact hiff.1 ((evalOutcome_none_iff _ _ _ _).1 (Except.ok.inj hout))
  · intro hnil
    exact congrArg Except.ok ((evalOutcome_none_iff s.best orig target path).2 (hiff.2 hnil))

/-- C3 witness: a codec whose decodes never match - no strategy verifies,
the run ends in the no-candidate outcome. -/
theorem C3_witness :
    ∃ s, runState codecNoVerify imgA = Except.ok s ∧ s.cands = [] ∧
      ultra_compress_lossless codecNoVerify imgA 100 400 "out.png" =
        .ok (Outcome.missed none none) := by
  refine ⟨_, rfl, rfl, ?_⟩
  exact ((C3_no_lossless_candidate codecNoVerify imgA 100 400 "out.png" _ rfl).2.1).mpr rfl

/-- C4: when the winner beats the budget, the outcome is success carrying
ratio 1 - size/originalSize and the winner's stored bytes verbatim; those
bytes are exactly the output of the winning strategy's single encode call
(StratInv), so nothing is re-encoded at write time. -/
theorem C4_success_verbatim (κ : Codec) (img : Img) (orig target : Nat) (path : String)
    (s : SelState) (b : Cand) (h : runState κ img = .ok s) (hb : s.best = some b)
    (hlt : b.size < target) :
    ultra_compress_lossless κ img orig target path =
      .ok (Outcome.success path b.size (1 - (b.size : ℚ) / (orig : ℚ)) b.bytes) ∧
    outputWrite (Outcome.success path b.size (1 - (b.size : ℚ) / (orig : ℚ)) b.bytes) =
      some b.bytes ∧
    b ∈ s.cands ∧ StratInv κ img b := by
  have hmem : b ∈ s.cands := by
    have hfold := runState_best_eq h
    rw [hb] at hfold
    obtain ⟨_, l1, l2, hsplit, _⟩ := foldl_stepMin_spec s.cands b hfold.symm
    rw [hsplit]
    exact List.mem_append_right _ (List.mem_cons_self _ _)
  refine ⟨?_, rfl, hmem, runState_inv h b hmem⟩
  rw [ultra_eq orig target path h, hb]
  simp only [evalOutcome]
  rw [if_pos hlt]

/-- C4 witness: concrete success of codecGood on imgA under budget 400. -/
theorem C4_witness :
    ∃ s b, runState codecGood imgA = Except.ok s ∧ s.best = some b ∧
      (ultra_compress_lossless codecGood imgA 100 400 "out.png" =
        .ok (Outcome.success "out.png" b.size (1 - (b.size : ℚ) / ((100 : Nat) : ℚ)) b.bytes) ∧
       outputWrite (Outcome.success "out.png" b.size (1 - (b.size : ℚ) / ((100 : Nat) : ℚ))
         b.bytes) = some b.bytes ∧
       b ∈ s.cands ∧ StratInv codecGood imgA b) :=
  ⟨_, _, rfl, rfl, C4_success_verbatim codecGood imgA 100 400 "out.png" _ _ rfl rfl (by decide)⟩

/-- C5: a winner at or above the budget yields the miss outcome reporting
the best size and the shortfall best - target, with nothing written; the
natural subtraction agrees with the integer difference because
target ≤ winner size. -/
theorem C5_budget_missed_report (κ : Codec) (img : Img) (orig target : Nat) (path : String)
    (s : SelState) (b : Cand) (h : runState κ img = .ok s) (hb : s.best = some b)
    (hge : target ≤ b.size) :
    ultra_compress_lossless κ img orig target path =
      .ok (Outcome.missed (some b.size) (some (b.size - target))) ∧
    outputWrite (Outcome.missed (some b.size) (some (b.size - target))) = none ∧
    ((b.size - target : Nat) : ℤ) = (b.size : ℤ) - (target : ℤ) := by
  refine ⟨?_, rfl, Nat.cast_sub hge⟩
  rw [ultra_eq orig target path h, hb]
  simp only [evalOutcome]
  rw [if_neg (not_lt.2 hge)]

/-- C5 witness: codecGood on imgA with budget 1 misses (best size is 2). -/
theorem C5_witness :
    ∃ s b, runState codecGood imgA = Except.ok s ∧ s.best = some b ∧
      (ultra_compress_lossless codecGood imgA 100 1 "out.png" =
        .ok (Outcome.missed (some b.size) (some (b.size - 1))) ∧
       outputWrite (Outcome.missed (some b.size) (some (b.size - 1))) = none ∧
       ((b.size - 1 : Nat) : ℤ) = (b.size : ℤ) - ((1 : Nat) : ℤ)) :=
  ⟨_, _, rfl, rfl, C5_budget_missed_report codecGood imgA 100 1 "out.png" _ _ rfl rfl (by decide)⟩

/-- C6 fails on the code: the encode calls of strategies 1, 2 and 4 are
outside any try block, so a codec failure there aborts the run as an
uncaught exception instead of being caught locally; here the direct save
raises and no result value is returned at all. -/
theorem C6_counterexample :
    ultra_compress_lossless codecFail imgA 100 400 "out.png" = Except.error () := rfl

/-- C6 amended: only the filter-variant block (strategy 3) catches its
errors locally; the run returns an explicit outcome value exactly when
every unguarded encode call - the direct save, the palette save when the
guard holds, and each applicable bits save for grayscale - succeeds. -/
theorem C6_amended_error_propagation (κ : Codec) (img : Img) (orig target : Nat)
    (path : String) :
    (∃ out, ultra_compress_lossless κ img orig target path = .ok out) ↔
      unguardedEncodesOK κ img := by
  constructor
  · rintro ⟨out, hout⟩
    obtain ⟨s, hs, _⟩ := ultra_cases hout
    exact runState_unguarded hs
  · intro h
    obtain ⟨s, hs⟩ := runState_isOk h
    exact ⟨_, ultra_eq orig target path hs⟩

/-- C6 amended witness: codecGood never raises, so the run of codecGood on
imgA completes with an explicit outcome. -/
theorem C6_amended_witness :
    ∃ out, ultra_compress_lossless codecGood imgA 100 400 "out.png" = .ok out :=
  (C6_amended_error_propagation codecGood imgA 100 400 "out.png").mpr
    ⟨⟨imgA.pixels ++ [0], rfl⟩, fun _ => ⟨imgA.pixels ++ [0], rfl⟩,
     fun _ b _ _ => ⟨imgA.pixels ++ [0], rfl⟩⟩

/-- C7: every filter-variant candidate comes from the same generic encode
call as the direct strategy, and a direct candidate with identical bytes
and identical size is always ranked, so the filter strategy never
contributes a candidate strictly smaller than the direct one. -/
theorem C7_filter_equals_direct (κ : Codec) (img : Img) (s : SelState)
    (h : runState κ img = .ok s) :
    ∀ c ∈ s.cands, ∀ k ∈ [0, 1, 2, 3, 4], c.file = filtFile k →
      κ.encodePNG img = .ok c.bytes ∧
      ∃ d ∈ s.cands, d.file = "temp_method1.png" ∧ d.bytes = c.bytes ∧ d.size = c.size := by
  intro c hc k hk hf
  obtain ⟨he, hv, hsz⟩ := stratInv_filter (runState_inv h c hc) hk hf
  refine ⟨he, ⟨"temp_method1.png", c.bytes.length, "PNG compress_level=9", c.bytes⟩,
    direct_mem h he hv, rfl, rfl, hsz.symm⟩

/-- C7 witness: in the run of codecGood on imgA, the filter-0 candidate has
the direct candidate beside it with the same bytes and size. -/
theorem C7_witness :
    ∃ s, runState codecGood imgA = Except.ok s ∧
      ∃ c ∈ s.cands, c.file = filtFile 0 ∧
        codecGood.encodePNG imgA = .ok c.bytes ∧
        ∃ d ∈ s.cands, d.file = "temp_method1.png" ∧ d.bytes = c.bytes ∧ d.size = c.size := by
  refine ⟨_, rfl, ⟨filtFile 0, 2, "PNG filter 0", [5, 0]⟩, by decide, rfl, ?_⟩
  exact C7_filter_equals_direct codecGood imgA _ rfl
    ⟨filtFile 0, 2, "PNG filter 0", [5, 0]⟩ (by decide) 0 (by decide) rfl

/-- C8: increasing the byte budget never turns a success into a miss: a
successful run stays successful, with the same winner, ratio and bytes. -/
theorem C8_budget_monotone (κ : Codec) (img : Img) (orig t t2 : Nat) (path : String)
    (p : String) (sz : Nat) (r : ℚ) (w : List Nat)
    (h : ultra_compress_lossless κ img orig t path = .ok (Outcome.success p sz r w))
    (hle : t ≤ t2) :
    ultra_compress_lossless κ img orig t2 path = .ok (Outcome.success p sz r w) := by
  obtain ⟨s, hs, hout⟩ := ultra_cases h
  cases hbest : s.best with
  | none =>
    rw [hbest] at hout
    simp only [evalOutcome] at hout
    cases hout
  | some b =>
    rw [hbest] at hout
    simp only [evalOutcome] at hout
    by_cases hlt : b.size < t
    · rw [if_pos hlt] at hout
      cases hout
      rw [ultra_eq orig t2 path hs, hbest]
      simp only [evalOutcome]
      rw [if_pos (lt_of_lt_of_le hlt hle)]
    · rw [if_neg hlt] at hout
      cases hout

/-- C8 witness: codecGood succeeds on imgA at budget 3, hence also at 10. -/
theorem C8_witness :
    ∃ r, ultra_compress_lossless codecGood imgA 100 3 "out.png" =
        .ok (Outcome.success "out.png" 2 r [5, 0]) ∧
      ultra_compress_lossless codecGood imgA 100 10 "out.png" =
        .ok (Outcome.success "out.png" 2 r [5, 0]) :=
  ⟨_, rfl, C8_budget_monotone codecGood imgA 100 3 10 "out.png" "out.png" 2 _ [5, 0]
    rfl (by norm_num)⟩

/-- C9: the palette strategy is guarded exactly by (distinct colors ≤ 256
and mode in Grayscale/RGB/RGBA); above 256 colors no palette candidate is
ever ranked while verified direct and filter candidates still are; under
the guard a conversion-verified palette encode is ranked. -/
theorem C9_palette_guard (κ : Codec) (img : Img) (s : SelState)
    (h : runState κ img = .ok s) :
    (palApplicable img = true ↔
      (uniqueColors img ≤ 256 ∧
        (img.mode = Mode.L ∨ img.mode = Mode.RGB ∨ img.mode = Mode.RGBA))) ∧
    (256 < uniqueColors img → ∀ c ∈ s.cands, c.file ≠ "temp_method2.png") ∧
    (∀ bytes, κ.encodePNG img = .ok bytes → rawVerified κ img bytes →
      (⟨"temp_method1.png", bytes.length, "PNG compress_level=9", bytes⟩ : Cand) ∈ s.cands ∧
      ∀ k ∈ [0, 1, 2, 3, 4],
        (⟨filtFile k, bytes.length, "PNG filter " ++ toString k, bytes⟩ : Cand) ∈ s.cands) ∧
    (palApplicable img = true →
      ∀ bytes, κ.encodePNG (κ.convertP img (uniqueColors img)) = .ok bytes →
        convVerified κ img bytes →
        (⟨"temp_method2.png", bytes.length,
          "Palette mode (" ++ toString (uniqueColors img) ++ " colors)", bytes⟩ : Cand) ∈
            s.cands) := by
  refine ⟨?_, ?_, ?_, ?_⟩
  · unfold palApplicable
    simp only [Bool.and_eq_true, Bool.or_eq_true, beq_iff_eq, decide_eq_true_eq]
    tauto
  · intro hgt c hc hf
    have ha := (stratInv_palette (runState_inv h c hc) hf).1
    unfold palApplicable at ha
    simp only [Bool.and_eq_true, decide_eq_true_eq] at ha
    omega
  · intro bytes he hv
    exact ⟨direct_mem h he hv, filter_mem h he hv⟩
  · intro ha bytes he hv
    exact palette_mem h ha he hv

/-- C9 witness: for codecGood on imgA the palette guard holds and the
palette candidate is ranked. -/
theorem C9_witness :
    ∃ s, runState codecGood imgA = Except.ok s ∧
      (⟨"temp_method2.png", 2, "Palette mode (1 colors)", [5, 0]⟩ : Cand) ∈ s.cands := by
  refine ⟨_, rfl, ?_⟩
  exact (C9_palette_guard codecGood imgA _ rfl).2.2.2 rfl [5, 0] rfl rfl

/-- C10: a palette candidate is accepted exactly on the converted-decode
check: every ranked palette candidate satisfies it and stems from the
palette encode call, a conversion-verified palette encode is ranked, and
the check is strictly weaker than the raw decode equality used by every
other strategy. -/
theorem C10_palette_convert_check (κ : Codec) (img : Img) (s : SelState)
    (h : runState κ img = .ok s) :
    (∀ c ∈ s.cands, c.file = "temp_method2.png" →
      convVerified κ img c.bytes ∧
      κ.encodePNG (κ.convertP img (uniqueColors img)) = .ok c.bytes) ∧
    (palApplicable img = true →
      ∀ bytes, κ.encodePNG (κ.convertP img (uniqueColors img)) = .ok bytes →
        convVerified κ img bytes →
        (⟨"temp_method2.png", bytes.length,
          "Palette mode (" ++ toString (uniqueColors img) ++ " colors)", bytes⟩ : Cand) ∈
            s.cands) ∧
    (∃ κ2 img2 bytes2, convVerified κ2 img2 bytes2 ∧ ¬ rawVerified κ2 img2 bytes2) := by
  refine ⟨?_, fun ha bytes he hv => palette_mem h ha he hv, ⟨codecPal, imgB, [9], ?_, ?_⟩⟩
  · intro c hc hf
    obtain ⟨_, he, hv, _⟩ := stratInv_palette (runState_inv h c hc) hf
    exact ⟨hv, he⟩
  · unfold convVerified codecPal pimgB imgB
    decide
  · unfold rawVerified codecPal pimgB imgB
    decide

/-- C10 witness: in the run of codecPal on imgB the ranked palette
candidate passes the converted-decode check and stems from the palette
encode call. -/
theorem C10_witness :
    ∃ s, runState codecPal imgB = Except.ok s ∧
      convVerified codecPal imgB [9] ∧
      codecPal.encodePNG (codecPal.convertP imgB (uniqueColors imgB)) = .ok [9] := by
  refine ⟨_, rfl, ?_⟩
  exact (C10_palette_convert_check codecPal imgB _ rfl).1
    ⟨"temp_method2.png", 1, "Palette mode (1 colors)", [9]⟩ (by decide) rfl
